import Mathlib

/-!
A verification development for the simem-allocator heap allocator.

The C source (src/main.c) is shallowly embedded.  The managed region is a
contiguous span of addresses: every block is a fixed-size header followed by
its payload, the block registry is the list of live headers in address order,
and the program break is a natural number.  The sbrk collaborator is modelled
as bumping the break against a fixed limit (extension fails exactly when the
limit would be exceeded; shrinking always succeeds).  Payload bytes live in a
total byte memory.  The while-loops of get_free_block and of the
tail-predecessor scan in free are embedded as fuel-bounded recursions; the
fuel passed by the operations (number of live headers plus one) bounds every
traversal of an acyclic registry, so on well-formed states the embedding
computes exactly what the C code computes.  Machine layout constants follow
the LP64 ABI.
-/

namespace SimemAlloc

/-! ### C object layout (LP64) and the size of the block header -/

/-- Round `n` up to a multiple of the alignment `a`. -/
def alignUp (n a : Nat) : Nat := (n + a - 1) / a * a

/-- Size and alignment of a C type. -/
structure CType where
  size : Nat
  align : Nat

/-- On LP64, size_t is 8 bytes with 8-byte alignment. -/
def c_size_t : CType := ⟨8, 8⟩

/-- On LP64, unsigned int is 4 bytes with 4-byte alignment. -/
def c_unsigned : CType := ⟨4, 4⟩

/-- On LP64, an object pointer is 8 bytes with 8-byte alignment. -/
def c_pointer : CType := ⟨8, 8⟩

/-- The type ALIGH from the source, char[16]: 16 bytes, byte-aligned. -/
def c_ALIGH : CType := ⟨16, 1⟩

/-- Standard C struct layout: each field at the next offset aligned for it,
total size padded up to the struct alignment. -/
def structLayout (fields : List CType) : CType :=
  let f := fields.foldl (fun p t => (alignUp p.1 t.align + t.size, max p.2 t.align))
    ((0 : Nat), (1 : Nat))
  ⟨alignUp f.1 f.2, f.2⟩

/-- Standard C union layout: the maximum member size, padded up to the
maximum member alignment. -/
def unionLayout (members : List CType) : CType :=
  let al := members.foldl (fun a m => max a m.align) 1
  let sz := members.foldl (fun a m => max a m.size) 0
  ⟨alignUp sz al, al⟩

/-- Layout of the anonymous struct s inside union header: a size_t, an
unsigned, and a pointer. -/
def header_s_struct : CType := structLayout [c_size_t, c_unsigned, c_pointer]

/-- Layout of union header (header_t): the struct overlaid with ALIGH. -/
def header_t : CType := unionLayout [header_s_struct, c_ALIGH]

/-- sizeof(header_t): every payload starts this many bytes after its header. -/
def HEADER_SIZE : Nat := header_t.size

/-- Wrap-around modulus of size_t arithmetic on LP64. -/
def SIZE_T_MOD : Nat := 2 ^ 64

/-! ### The heap state -/

/-- One block header as stored in the region: its own address, the payload
size in bytes (field s.size), the free flag (field s.is_free, which the code
only ever sets to 0 or 1), and the forward registry pointer (field s.next,
NULL embedded as none). -/
structure Cell where
  addr : Nat
  size : Nat
  is_free : Bool
  next : Option Nat
deriving Repr, DecidableEq

/-- The global allocator state: the live headers in address order (the bytes
of the region that hold headers), the head and tail registry pointers, the
current program break, the break limit beyond which sbrk fails, and the byte
memory holding payload contents. -/
structure Heap where
  cells : List Cell
  head : Option Nat
  tail : Option Nat
  brk : Nat
  limit : Nat
  mem : Nat → Nat

/-- Read the header stored at address `a`, if any. -/
def findCell (cells : List Cell) (a : Nat) : Option Cell :=
  cells.find? (fun c => c.addr == a)

/-- Write through the header at address `a`, transforming it by `f`. -/
def updCell (cells : List Cell) (a : Nat) (f : Cell → Cell) : List Cell :=
  cells.map (fun c => if c.addr = a then f c else c)

/-- The while-loop of get_free_block: walk the registry from `curr`,
returning the address of the first header with is_free set and size at least
the request.  The fuel bounds the walk. -/
def getFreeBlock (cells : List Cell) (size : Nat) : Nat → Option Nat → Option Nat
  | 0, _ => none
  | _ + 1, none => none
  | fuel + 1, some a =>
    match findCell cells a with
    | none => none
    | some c =>
      if c.is_free && decide (size ≤ c.size) then some a
      else getFreeBlock cells size fuel c.next

/-- The miss path of malloc: extend the region by header size plus request,
build the new header at the old break, link it as the new tail. -/
def mallocGrow (s : Heap) (size : Nat) : Option Nat × Heap :=
  if s.limit < s.brk + (HEADER_SIZE + size) then (none, s)
  else
    (some (s.brk + HEADER_SIZE),
     { s with
         cells :=
           match s.tail with
           | some t =>
             updCell (s.cells ++ [⟨s.brk, size, false, none⟩]) t
               (fun c => { c with next := some s.brk })
           | none => s.cells ++ [⟨s.brk, size, false, none⟩]
         head :=
           match s.head with
           | none => some s.brk
           | some h => some h
         tail := some s.brk
         brk := s.brk + (HEADER_SIZE + size) })

/-- The malloc of src/main.c: zero size yields NULL; otherwise reuse the
first fitting free block (flipping its is_free to 0), else grow the region. -/
def malloc (s : Heap) (size : Nat) : Option Nat × Heap :=
  if size = 0 then (none, s)
  else
    match getFreeBlock s.cells size (s.cells.length + 1) s.head with
    | some a =>
      (some (a + HEADER_SIZE),
       { s with cells := updCell s.cells a (fun c => { c with is_free := false }) })
    | none => mallocGrow s size

/-- The while-loop in free that finds the predecessor of tail: walk from
`tmp`, and at the header whose next equals tail, clear its next and make it
the new tail; the loop then continues from the freshly cleared next. -/
def freeScan : List Cell → Option Nat → Nat → Option Nat → List Cell × Option Nat
  | cells, tl, 0, _ => (cells, tl)
  | cells, tl, _ + 1, none => (cells, tl)
  | cells, tl, fuel + 1, some t =>
    match findCell cells t with
    | none => (cells, tl)
    | some c =>
      if c.next = tl then
        freeScan (updCell cells t (fun d => { d with next := none })) (some t) fuel none
      else
        freeScan cells tl fuel c.next

/-- The registry surgery of free when more than one block exists: run the
predecessor scan and store its resulting registry and tail. -/
def freeUnlink (s : Heap) : Heap :=
  { s with
      cells := (freeScan s.cells s.tail (s.cells.length + 1) s.head).1
      tail := (freeScan s.cells s.tail (s.cells.length + 1) s.head).2 }

/-- The negative sbrk of free: drop the break by `amount`; header bytes at or
beyond the new break leave the managed region. -/
def freeRelease (s : Heap) (amount : Nat) : Heap :=
  { s with
      brk := s.brk - amount
      cells := s.cells.filter (fun d => decide (d.addr < s.brk - amount)) }

/-- The free of src/main.c: NULL is a no-op; a block whose payload ends at
the break is unlinked (or, if it is the only block, head and tail are reset)
and the region is shrunk by header size plus payload size; an interior block
merely has is_free set to 1. -/
def free (s : Heap) (blk : Option Nat) : Heap :=
  match blk with
  | none => s
  | some b =>
    match findCell s.cells (b - HEADER_SIZE) with
    | none => s
    | some c =>
      if b + c.size = s.brk then
        freeRelease
          (if s.head = s.tail then { s with head := none, tail := none }
           else freeUnlink s)
          (HEADER_SIZE + c.size)
      else
        { s with cells := updCell s.cells (b - HEADER_SIZE) (fun d => { d with is_free := true }) }

/-- The memset of calloc: overwrite `n` bytes starting at `dst` with `v`. -/
def memset (m : Nat → Nat) (dst v n : Nat) : Nat → Nat :=
  fun i => if dst ≤ i ∧ i < dst + n then v else m i

/-- The memcpy of realloc: copy `n` bytes from `src` to `dst`. -/
def memcpy (m : Nat → Nat) (dst src n : Nat) : Nat → Nat :=
  fun i => if dst ≤ i ∧ i < dst + n then m (src + (i - dst)) else m i

/-- The calloc of src/main.c: zero count or zero element size yields NULL;
the size_t product wraps, and wrap is detected by dividing back; on success
the fresh payload is zero-filled. -/
def calloc (s : Heap) (num nsize : Nat) : Option Nat × Heap :=
  if num = 0 ∨ nsize = 0 then (none, s)
  else
    if nsize ≠ num * nsize % SIZE_T_MOD / num then (none, s)
    else
      match malloc s (num * nsize % SIZE_T_MOD) with
      | (none, s1) => (none, s1)
      | (some b, s1) => (some b, { s1 with mem := memset s1.mem b 0 (num * nsize % SIZE_T_MOD) })

/-- The realloc of src/main.c: NULL block or zero size yields NULL; a block
already big enough is returned unchanged; otherwise a new block is obtained
from malloc, the old payload (re-reading its header for the byte count) is
copied over, and the old block is freed. -/
def realloc (s : Heap) (blk : Option Nat) (size : Nat) : Option Nat × Heap :=
  match blk with
  | none => (none, s)
  | some b =>
    if size = 0 then (none, s)
    else
      match findCell s.cells (b - HEADER_SIZE) with
      | none => (none, s)
      | some c =>
        if size ≤ c.size then (some b, s)
        else
          match malloc s size with
          | (none, s1) => (none, s1)
          | (some r, s1) =>
            (some r,
             free
               { s1 with
                   mem := memcpy s1.mem r b
                     (match findCell s1.cells (b - HEADER_SIZE) with
                      | some c1 => c1.size
                      | none => 0) }
               (some b))

/-! ### Well-formedness of the heap state -/

/-- Registry linking along the physical order: the pointer `k` points at the
first of the given headers, each header's next points at the following one,
and the last header's next is the exit pointer `k2` (for no headers, `k`
itself must equal `k2`). -/
def chainSeg : Option Nat → List Cell → Option Nat → Bool
  | k, [], k2 => k == k2
  | k, c :: r, k2 => (k == some c.addr) && chainSeg c.next r k2

/-- Physical contiguity from start address `a` up to the break: each header
sits immediately after the previous payload, and the last payload ends
exactly at the break. -/
def layoutFrom : Nat → List Cell → Nat → Bool
  | a, [], brk => a == brk
  | a, c :: r, brk => (c.addr == a) && layoutFrom (a + HEADER_SIZE + c.size) r brk

/-- Physical contiguity of the whole region (anchored at the first header). -/
def layout : List Cell → Nat → Bool
  | [], _ => true
  | c :: r, brk => layoutFrom c.addr (c :: r) brk

/-- The address just past the given blocks when they are laid out starting
at `a`. -/
def endAfter : Nat → List Cell → Nat
  | a, [] => a
  | a, c :: r => endAfter (a + HEADER_SIZE + c.size) r

/-- The allocator's global invariant: the registry chain starts at head,
runs along the physical block order and ends with an empty next pointer,
the blocks tile the region up to the break, and tail is the last block. -/
def wf (s : Heap) : Bool :=
  chainSeg s.head s.cells none &&
  layout s.cells s.brk &&
  (s.tail == (s.cells.getLast?).map Cell.addr)

/-- A legal argument for free or realloc: NULL, or the payload address of
some live block. -/
def validInput (s : Heap) (blk : Option Nat) : Bool :=
  match blk with
  | none => true
  | some b => s.cells.any (fun c => c.addr + HEADER_SIZE == b)

/-- The chain of addresses reached from a registry pointer by following next
fields, cut off by fuel. -/
def chainFrom (cells : List Cell) : Nat → Option Nat → List Nat
  | 0, _ => []
  | _ + 1, none => []
  | fuel + 1, some a =>
    match findCell cells a with
    | none => [a]
    | some c => a :: chainFrom cells fuel c.next

/-- Registry consistency as observed through the registry pointers: head and
tail are both empty, or the chain from head is duplicate-free, ends at tail,
tail's next is empty, every live block is on the chain, and every chain entry
is a live block. -/
def registryConsistent (s : Heap) : Bool :=
  match s.head, s.tail with
  | none, none => true
  | some h, some t =>
    decide (chainFrom s.cells (s.cells.length + 1) (some h)).Nodup &&
    ((chainFrom s.cells (s.cells.length + 1) (some h)).getLast? == some t) &&
    (match findCell s.cells t with
     | some c => c.next == none
     | none => false) &&
    s.cells.all (fun c => (chainFrom s.cells (s.cells.length + 1) (some h)).contains c.addr) &&
    (chainFrom s.cells (s.cells.length + 1) (some h)).all
      (fun a => (findCell s.cells a).isSome)
  | _, _ => false

/-! ### Concrete states used to witness the theorems -/

/-- An empty heap: no blocks, break at 100, room up to 1000. -/
def S0 : Heap := ⟨[], none, none, 100, 1000, fun _ => 0⟩

/-- A two-block heap: a free 8-byte block at 100 followed by a live 16-byte
block at 132, break at 172. -/
def S2 : Heap :=
  ⟨[⟨100, 8, true, some 132⟩, ⟨132, 16, false, none⟩],
   some 100, some 132, 172, 1000, fun _ => 0⟩

/-- A one-block heap whose break limit is nearly exhausted: a live 8-byte
block at 100, break at 132, limit 140. -/
def S3 : Heap := ⟨[⟨100, 8, false, none⟩], some 100, some 100, 132, 140, fun _ => 0⟩

/-- A one-block heap with identity-pattern memory, used to watch realloc
copy payload bytes. -/
def S4 : Heap := ⟨[⟨100, 8, false, none⟩], some 100, some 100, 132, 1000, fun i => i⟩

/-- A two-block heap with both blocks live: an 8-byte block at 100 and a
16-byte block at 132, break at 172. -/
def S5 : Heap :=
  ⟨[⟨100, 8, false, some 132⟩, ⟨132, 16, false, none⟩],
   some 100, some 132, 172, 1000, fun _ => 0⟩

/-! ### Basic facts -/

theorem HEADER_SIZE_eq : HEADER_SIZE = 24 := by decide

theorem HEADER_SIZE_pos : 0 < HEADER_SIZE := by decide

theorem wf_iff (s : Heap) :
    wf s = true ↔
      chainSeg s.head s.cells none = true ∧ layout s.cells s.brk = true ∧
      s.tail = (s.cells.getLast?).map Cell.addr := by
  simp [wf, Bool.and_eq_true, beq_iff_eq, and_assoc]

/-! ### Lemmas about registry linking -/

theorem chainSeg_cons {k : Option Nat} {c : Cell} {r : List Cell} {k2 : Option Nat}
    (h : chainSeg k (c :: r) k2 = true) :
    k = some c.addr ∧ chainSeg c.next r k2 = true := by
  rw [chainSeg, Bool.and_eq_true, beq_iff_eq] at h
  exact h

theorem chainSeg_start_none {k : Option Nat} {l : List Cell}
    (h : chainSeg k l none = true) : k = (l.head?).map Cell.addr := by
  cases l with
  | nil =>
    rw [chainSeg, beq_iff_eq] at h
    simpa using h
  | cons c r => simpa using (chainSeg_cons h).1

theorem chainSeg_append_cons {k : Option Nat} {u : List Cell} {d : Cell}
    {w : List Cell} {k2 : Option Nat} :
    chainSeg k (u ++ d :: w) k2
      = (chainSeg k u (some d.addr) && chainSeg (some d.addr) (d :: w) k2) := by
  induction u generalizing k with
  | nil => simp [chainSeg]
  | cons x r ih =>
    simp only [List.cons_append, chainSeg, List.append_eq, ih, Bool.and_assoc]

theorem chainSeg_updCell {k k2 : Option Nat} {l : List Cell} {a : Nat} {f : Cell → Cell}
    (haddr : ∀ c, (f c).addr = c.addr) (hnext : ∀ c, (f c).next = c.next) :
    chainSeg k (updCell l a f) k2 = chainSeg k l k2 := by
  induction l generalizing k with
  | nil => rfl
  | cons x r ih =>
    show chainSeg k ((if x.addr = a then f x else x) :: updCell r a f) k2 = _
    rw [chainSeg, chainSeg, ih]
    by_cases hx : x.addr = a
    · rw [if_pos hx, haddr, hnext]
    · rw [if_neg hx]

/-! ### Lemmas about the physical layout -/

theorem layoutFrom_le {a : Nat} {l : List Cell} {brk : Nat}
    (h : layoutFrom a l brk = true) : a ≤ brk := by
  induction l generalizing a with
  | nil =>
    rw [layoutFrom, beq_iff_eq] at h
    omega
  | cons c r ih =>
    rw [layoutFrom, Bool.and_eq_true] at h
    have := ih h.2
    omega

theorem layoutFrom_bounds {a : Nat} {l : List Cell} {brk : Nat}
    (h : layoutFrom a l brk = true) {c : Cell} (hc : c ∈ l) :
    a ≤ c.addr ∧ c.addr + HEADER_SIZE + c.size ≤ brk := by
  induction l generalizing a with
  | nil => cases hc
  | cons x r ih =>
    rw [layoutFrom, Bool.and_eq_true, beq_iff_eq] at h
    rcases List.mem_cons.mp hc with rfl | hc
    · have := layoutFrom_le h.2
      omega
    · have := ih h.2 hc
      omega

theorem layoutFrom_pairwise {a : Nat} {l : List Cell} {brk : Nat}
    (h : layoutFrom a l brk = true) :
    l.Pairwise (fun c d => c.addr < d.addr) := by
  induction l generalizing a with
  | nil => exact List.Pairwise.nil
  | cons x r ih =>
    rw [layoutFrom, Bool.and_eq_true, beq_iff_eq] at h
    refine List.pairwise_cons.mpr ⟨?_, ih h.2⟩
    intro d hd
    have hb := layoutFrom_bounds h.2 hd
    have hp := HEADER_SIZE_pos
    omega

theorem layout_pairwise {l : List Cell} {brk : Nat} (h : layout l brk = true) :
    l.Pairwise (fun c d => c.addr < d.addr) := by
  cases l with
  | nil => exact List.Pairwise.nil
  | cons c r => exact layoutFrom_pairwise h

theorem layoutFrom_append {a brk : Nat} {u v : List Cell} :
    layoutFrom a (u ++ v) brk
      = (layoutFrom a u (endAfter a u) && layoutFrom (endAfter a u) v brk) := by
  induction u generalizing a with
  | nil => simp [layoutFrom, endAfter]
  | cons x r ih =>
    simp only [List.cons_append, layoutFrom, endAfter, List.append_eq, ih, Bool.and_assoc]

/-! ### Lemmas about header reads and writes -/

theorem findCell_of_pairwise {l : List Cell}
    (hp : l.Pairwise (fun c d => c.addr < d.addr)) {c : Cell} (hc : c ∈ l) :
    findCell l c.addr = some c := by
  induction l with
  | nil => cases hc
  | cons x r ih =>
    rcases List.mem_cons.mp hc with rfl | hc
    · rw [findCell, List.find?_cons_of_pos]
      simp
    · have hx : x.addr ≠ c.addr := by
        have := (List.pairwise_cons.mp hp).1 c hc
        omega
      rw [findCell, List.find?_cons_of_neg, ← findCell]
      · exact ih hp.of_cons hc
      · simp [hx]

theorem updCell_id {l : List Cell} {a : Nat} {f : Cell → Cell}
    (h : ∀ c ∈ l, c.addr ≠ a) : updCell l a f = l := by
  induction l with
  | nil => rfl
  | cons x r ih =>
    have hx := h x (List.mem_cons_self x r)
    show (if x.addr = a then f x else x) :: updCell r a f = x :: r
    rw [if_neg hx, ih (fun c hc => h c (List.mem_cons_of_mem _ hc))]

theorem updCell_append {u v : List Cell} {a : Nat} {f : Cell → Cell} :
    updCell (u ++ v) a f = updCell u a f ++ updCell v a f :=
  List.map_append _ _ _

theorem pairwise_split {u : List Cell} {c : Cell} {v : List Cell}
    (hp : (u ++ c :: v).Pairwise (fun a b => a.addr < b.addr)) :
    (∀ d ∈ u, d.addr ≠ c.addr) ∧ (∀ d ∈ v, d.addr ≠ c.addr) := by
  rw [List.pairwise_append] at hp
  obtain ⟨h1, h2, h3⟩ := hp
  refine ⟨fun d hd => ?_, fun d hd => ?_⟩
  · have := h3 d hd c (List.mem_cons_self _ _)
    omega
  · have := (List.pairwise_cons.mp h2).1 d hd
    omega

theorem updCell_unique {u : List Cell} {c : Cell} {v : List Cell} {f : Cell → Cell}
    (hp : (u ++ c :: v).Pairwise (fun a b => a.addr < b.addr)) :
    updCell (u ++ c :: v) c.addr f = u ++ f c :: v := by
  obtain ⟨hu, hv⟩ := pairwise_split hp
  rw [updCell_append, updCell_id hu]
  show u ++ (if c.addr = c.addr then f c else c) :: updCell v c.addr f = _
  rw [if_pos rfl, updCell_id hv]

theorem pairwise_lt_last {u : List Cell} {l : Cell}
    (hp : (u ++ [l]).Pairwise (fun a b => a.addr < b.addr)) {d : Cell} (hd : d ∈ u) :
    d.addr < l.addr := by
  rw [List.pairwise_append] at hp
  exact hp.2.2 d hd l (List.mem_cons_self _ _)

/-! ### The registry walks compute list operations on well-formed states -/

theorem getFreeBlock_spec {n : Nat} {t v : List Cell} {w : Nat}
    (hlay : layout (t ++ v) w = true)
    (hchain : chainSeg ((v.head?).map Cell.addr) v none = true)
    {g : Nat} (hf : v.length ≤ g) :
    getFreeBlock (t ++ v) n g ((v.head?).map Cell.addr)
      = (v.find? (fun c => c.is_free && decide (n ≤ c.size))).map Cell.addr := by
  induction v generalizing t g with
  | nil => cases g with
    | zero => simp [getFreeBlock]
    | succ f => simp [getFreeBlock]
  | cons c rest ih =>
    obtain ⟨f, rfl⟩ : ∃ f, g = f + 1 :=
      ⟨g - 1, by simp only [List.length_cons] at hf; omega⟩
    have hfind : findCell (t ++ c :: rest) c.addr = some c :=
      findCell_of_pairwise (layout_pairwise hlay) (by simp)
    have hrest : chainSeg c.next rest none = true :=
      (chainSeg_cons (by simpa using hchain)).2
    have hnext : c.next = (rest.head?).map Cell.addr := chainSeg_start_none hrest
    simp only [List.head?_cons, Option.map_some, getFreeBlock, hfind]
    by_cases hp : (c.is_free && decide (n ≤ c.size)) = true
    · rw [if_pos hp]
      simp [List.find?, hp]
    · rw [if_neg hp]
      have hfind2 : List.find? (fun c => c.is_free && decide (n ≤ c.size)) (c :: rest)
          = List.find? (fun c => c.is_free && decide (n ≤ c.size)) rest := by
        simp [List.find?, hp]
      rw [hfind2, hnext]
      have h3 := ih (t := t ++ [c])
        (by simpa [List.append_assoc] using hlay)
        (hnext ▸ hrest)
        (g := f) (by simp only [List.length_cons] at hf; omega)
      simpa [List.append_assoc] using h3

theorem chainFrom_spec {t v : List Cell} {w : Nat}
    (hlay : layout (t ++ v) w = true)
    (hchain : chainSeg ((v.head?).map Cell.addr) v none = true)
    {g : Nat} (hf : v.length ≤ g) :
    chainFrom (t ++ v) g ((v.head?).map Cell.addr) = v.map Cell.addr := by
  induction v generalizing t g with
  | nil => cases g with
    | zero => simp [chainFrom]
    | succ f => simp [chainFrom]
  | cons c rest ih =>
    obtain ⟨f, rfl⟩ : ∃ f, g = f + 1 :=
      ⟨g - 1, by simp only [List.length_cons] at hf; omega⟩
    have hfind : findCell (t ++ c :: rest) c.addr = some c :=
      findCell_of_pairwise (layout_pairwise hlay) (by simp)
    have hrest : chainSeg c.next rest none = true :=
      (chainSeg_cons (by simpa using hchain)).2
    have hnext : c.next = (rest.head?).map Cell.addr := chainSeg_start_none hrest
    simp only [List.head?_cons, Option.map_some, chainFrom, hfind, hnext, List.map_cons]
    have h3 := ih (t := t ++ [c])
      (by simpa [List.append_assoc] using hlay)
      (hnext ▸ hrest)
      (g := f) (by simp only [List.length_cons] at hf; omega)
    simpa [List.append_assoc] using h3

theorem freeScan_spec {t w : List Cell} {p l : Cell} {k : Nat}
    (hlay : layout (t ++ (w ++ [p, l])) k = true)
    (hchain : chainSeg (((w ++ [p, l]).head?).map Cell.addr) (w ++ [p, l]) none = true)
    {g : Nat} (hf : w.length + 1 ≤ g) :
    freeScan (t ++ (w ++ [p, l])) (some l.addr) g (((w ++ [p, l]).head?).map Cell.addr)
      = (updCell (t ++ (w ++ [p, l])) p.addr (fun d => { d with next := none }),
         some p.addr) := by
  induction w generalizing t g with
  | nil =>
    obtain ⟨f, rfl⟩ : ∃ f, g = f + 1 := ⟨g - 1, by omega⟩
    simp only [List.nil_append] at hlay hchain ⊢
    have hfind : findCell (t ++ [p, l]) p.addr = some p :=
      findCell_of_pairwise (layout_pairwise hlay) (by simp)
    have hrest : chainSeg p.next [l] none = true :=
      (chainSeg_cons (by simpa using hchain)).2
    have hnext : p.next = some l.addr := by
      simpa using chainSeg_start_none hrest
    simp only [List.head?_cons, Option.map_some, freeScan, hfind]
    rw [if_pos hnext]
    cases f with
    | zero => rw [freeScan]
    | succ f2 => rw [freeScan]
  | cons x w2 ih =>
    obtain ⟨f, rfl⟩ : ∃ f, g = f + 1 := ⟨g - 1, by omega⟩
    simp only [List.cons_append] at hlay hchain ⊢
    have hfind : findCell (t ++ x :: (w2 ++ [p, l])) x.addr = some x :=
      findCell_of_pairwise (layout_pairwise hlay) (by simp)
    have hrest : chainSeg x.next (w2 ++ [p, l]) none = true :=
      (chainSeg_cons (by simpa using hchain)).2
    have hnext : x.next = ((w2 ++ [p, l]).head?).map Cell.addr :=
      chainSeg_start_none hrest
    obtain ⟨hh, hh1, hh2⟩ :
        ∃ hh, (w2 ++ [p, l]).head? = some hh ∧ hh ∈ w2 ++ [p] := by
      cases w2 with
      | nil => exact ⟨p, by simp, by simp⟩
      | cons y r => exact ⟨y, by simp, by simp⟩
    have hlt : hh.addr < l.addr := by
      have hp2 : ((t ++ x :: (w2 ++ [p])) ++ [l]).Pairwise
          (fun a b => a.addr < b.addr) := by
        have := layout_pairwise hlay
        simpa [List.append_assoc] using this
      exact pairwise_lt_last hp2 (by simp [hh2])
    have hne : ¬(x.next = some l.addr) := by
      intro hEq
      rw [hnext, hh1] at hEq
      simp at hEq
      omega
    simp only [List.head?_cons, Option.map_some, freeScan, hfind]
    rw [if_neg hne, hnext]
    have h3 := ih (t := t ++ [x])
      (by simpa [List.append_assoc] using hlay)
      (hnext ▸ hrest)
      (g := f) (by simp only [List.length_cons] at hf; omega)
    simpa [List.append_assoc] using h3

/-! ### Claim theorems, part one: the derived operations' guard clauses -/

/-- Claim C8: allocate with size zero, and zero-fill-allocate with either
argument zero, return NULL and leave the heap state exactly as it was. -/
theorem zero_size_requests (s : Heap) (k : Nat) :
    malloc s 0 = (none, s) ∧ calloc s 0 k = (none, s) ∧ calloc s k 0 = (none, s) := by
  refine ⟨by simp [malloc], by simp [calloc], ?_⟩
  simp [calloc]

/-- Claim C9 (refuted by the code): under the LP64 ABI the header union is 24
bytes, because the embedded struct (size_t, unsigned, pointer) lays out to 24
bytes and dominates the 16-byte ALIGH stub; 24 is not a multiple of 16, so a
payload is offset from its header start by 24 bytes, contradicting both the
claim and the source comment that header_t has a fixed 16-byte size. -/
theorem header_size_not_sixteen :
    HEADER_SIZE = 24 ∧ header_s_struct.size = 24 ∧ HEADER_SIZE % 16 = 8 := by decide

/-! ### Pointwise header updates preserve the invariant -/

theorem layoutFrom_updCell {a0 : Nat} {l : List Cell} {brk a : Nat} {f : Cell → Cell}
    (haddr : ∀ c, (f c).addr = c.addr) (hsize : ∀ c, (f c).size = c.size) :
    layoutFrom a0 (updCell l a f) brk = layoutFrom a0 l brk := by
  induction l generalizing a0 with
  | nil => rfl
  | cons x r ih =>
    show layoutFrom a0 ((if x.addr = a then f x else x) :: updCell r a f) brk = _
    rw [layoutFrom, layoutFrom, ih]
    by_cases hx : x.addr = a
    · rw [if_pos hx, haddr, hsize]
    · rw [if_neg hx]

theorem layout_updCell {l : List Cell} {brk a : Nat} {f : Cell → Cell}
    (haddr : ∀ c, (f c).addr = c.addr) (hsize : ∀ c, (f c).size = c.size) :
    layout (updCell l a f) brk = layout l brk := by
  cases l with
  | nil => rfl
  | cons x r =>
    have h1 : (if x.addr = a then f x else x).addr = x.addr := by
      by_cases hx : x.addr = a <;> simp [hx, haddr]
    show layout ((if x.addr = a then f x else x) :: updCell r a f) brk = _
    rw [layout, layout, h1]
    show layoutFrom x.addr (updCell (x :: r) a f) brk = _
    rw [layoutFrom_updCell haddr hsize]

theorem updCell_getLast?_addr {l : List Cell} {a : Nat} {f : Cell → Cell}
    (haddr : ∀ c, (f c).addr = c.addr) :
    ((updCell l a f).getLast?).map Cell.addr = (l.getLast?).map Cell.addr := by
  rw [updCell, List.getLast?_map]
  cases hl : l.getLast? with
  | none => rfl
  | some c =>
    by_cases hx : c.addr = a <;> simp [hx, haddr]

theorem wf_updCell {s : Heap} {a : Nat} {f : Cell → Cell}
    (hwf : wf s = true)
    (haddr : ∀ c, (f c).addr = c.addr) (hsize : ∀ c, (f c).size = c.size)
    (hnext : ∀ c, (f c).next = c.next) :
    wf { s with cells := updCell s.cells a f } = true := by
  rw [wf_iff] at hwf ⊢
  obtain ⟨h1, h2, h3⟩ := hwf
  refine ⟨?_, ?_, ?_⟩
  · show chainSeg s.head (updCell s.cells a f) none = true
    rw [chainSeg_updCell haddr hnext]
    exact h1
  · show layout (updCell s.cells a f) s.brk = true
    rw [layout_updCell haddr hsize]
    exact h2
  · show s.tail = ((updCell s.cells a f).getLast?).map Cell.addr
    rw [updCell_getLast?_addr haddr]
    exact h3

theorem exists_addr_updCell {l : List Cell} {a : Nat} {f : Cell → Cell}
    (haddr : ∀ d, (f d).addr = d.addr) (hsize : ∀ d, (f d).size = d.size)
    {c : Cell} (hc : c ∈ l) :
    ∃ c', c' ∈ updCell l a f ∧ c'.addr = c.addr ∧ c'.size = c.size := by
  refine ⟨if c.addr = a then f c else c, List.mem_map_of_mem _ hc, ?_, ?_⟩
  · by_cases hx : c.addr = a <;> simp [hx, haddr]
  · by_cases hx : c.addr = a <;> simp [hx, hsize]

/-! ### Frame lemmas for malloc -/

theorem mallocGrow_mem (s : Heap) (n : Nat) : (mallocGrow s n).2.mem = s.mem := by
  rw [mallocGrow]
  split
  · rfl
  · rfl

theorem malloc_mem (s : Heap) (n : Nat) : (malloc s n).2.mem = s.mem := by
  rw [malloc]
  split
  · rfl
  · split
    · rfl
    · exact mallocGrow_mem s n

theorem malloc_limit (s : Heap) (n : Nat) : (malloc s n).2.limit = s.limit := by
  rw [malloc]
  split
  · rfl
  · split
    · rfl
    · rw [mallocGrow]
      split
      · rfl
      · rfl

theorem malloc_fail_frame {s : Heap} {n : Nat} (h : (malloc s n).1 = none) :
    (malloc s n).2 = s := by
  by_cases h0 : n = 0
  · rw [malloc, if_pos h0]
  · rw [malloc, if_neg h0] at h ⊢
    rcases hg : getFreeBlock s.cells n (s.cells.length + 1) s.head with _ | a
    · rw [hg] at h
      have h2 : (mallocGrow s n).1 = none := h
      show (mallocGrow s n).2 = s
      by_cases hl : s.limit < s.brk + (HEADER_SIZE + n)
      · rw [mallocGrow, if_pos hl]
      · rw [mallocGrow, if_neg hl] at h2
        simp at h2
    · rw [hg] at h
      simp at h

theorem malloc_cells_addrs {s : Heap} {n : Nat} {c : Cell} (hc : c ∈ s.cells) :
    ∃ c', c' ∈ (malloc s n).2.cells ∧ c'.addr = c.addr ∧ c'.size = c.size := by
  rw [malloc]
  split
  · exact ⟨c, hc, rfl, rfl⟩
  · split
    · exact exists_addr_updCell (f := fun d => { d with is_free := false })
        (fun d => rfl) (fun d => rfl) hc
    · rw [mallocGrow]
      split
      · exact ⟨c, hc, rfl, rfl⟩
      · rcases ht : s.tail with _ | t
        · simp only [ht]
          exact ⟨c, List.mem_append_left _ hc, rfl, rfl⟩
        · simp only [ht]
          exact exists_addr_updCell (f := fun d => { d with next := some s.brk })
            (fun d => rfl) (fun d => rfl) (List.mem_append_left _ hc)

/-! ### The invariant survives region growth -/

theorem layout_bounds {l : List Cell} {brk : Nat} (h : layout l brk = true)
    {c : Cell} (hc : c ∈ l) : c.addr + HEADER_SIZE + c.size ≤ brk := by
  cases l with
  | nil => cases hc
  | cons x r => exact (layoutFrom_bounds h hc).2

theorem layoutFrom_snoc_grow {a : Nat} {u : List Cell} {lst : Cell} {brk n k : Nat}
    (h : layoutFrom a (u ++ [lst]) brk = true) :
    layoutFrom a (u ++ ({ lst with next := some k } :: [⟨brk, n, false, none⟩]))
      (brk + (HEADER_SIZE + n)) = true := by
  rw [layoutFrom_append] at h ⊢
  rw [Bool.and_eq_true] at h ⊢
  refine ⟨h.1, ?_⟩
  have h2 := h.2
  simp only [layoutFrom, Bool.and_eq_true, beq_iff_eq] at h2 ⊢
  obtain ⟨ha, hb⟩ := h2
  exact ⟨ha, by omega, by omega⟩

theorem wf_mallocGrow {s : Heap} {n : Nat} (hwf : wf s = true) :
    wf (mallocGrow s n).2 = true := by
  rw [mallocGrow]
  split
  · exact hwf
  · rw [wf_iff] at hwf
    obtain ⟨h1, h2, h3⟩ := hwf
    rcases List.eq_nil_or_concat s.cells with hc | ⟨w, lst, hc⟩
    · rw [hc] at h1 h2 h3
      have hh : s.head = none := by
        rw [chainSeg, beq_iff_eq] at h1
        exact h1
      have ht : s.tail = none := by simpa using h3
      rw [wf_iff]
      simp only [hh, ht, hc]
      refine ⟨by simp [chainSeg], ?_, by simp⟩
      show layout ([] ++ [⟨s.brk, n, false, none⟩]) (s.brk + (HEADER_SIZE + n)) = true
      simp [layout, layoutFrom, Nat.add_assoc]
    · rw [List.concat_eq_append] at hc
      rw [hc] at h1 h2 h3
      have ht : s.tail = some lst.addr := by simpa using h3
      have hpw : (w ++ lst :: [(⟨s.brk, n, false, none⟩ : Cell)]).Pairwise
          (fun a b => a.addr < b.addr) := by
        rw [show w ++ lst :: [(⟨s.brk, n, false, none⟩ : Cell)]
            = (w ++ [lst]) ++ [⟨s.brk, n, false, none⟩] by simp]
        rw [List.pairwise_append]
        refine ⟨layout_pairwise h2, by simp, ?_⟩
        intro a ha b hb
        rw [List.mem_singleton] at hb
        subst hb
        have hba := layout_bounds h2 ha
        have hhp := HEADER_SIZE_pos
        show a.addr < s.brk
        omega
      have hcells2 : updCell ((w ++ [lst]) ++ [⟨s.brk, n, false, none⟩]) lst.addr
          (fun c => { c with next := some s.brk })
          = w ++ ({ lst with next := some s.brk } :: [⟨s.brk, n, false, none⟩]) := by
        rw [show (w ++ [lst]) ++ [(⟨s.brk, n, false, none⟩ : Cell)]
            = w ++ lst :: [⟨s.brk, n, false, none⟩] by simp]
        exact updCell_unique hpw
      obtain ⟨h0, hh0⟩ : ∃ h0, s.head = some h0 := by
        have hs := chainSeg_start_none h1
        cases w with
        | nil => exact ⟨lst.addr, by simpa using hs⟩
        | cons c0 w' => exact ⟨c0.addr, by simpa using hs⟩
      rw [hh0] at h1
      rw [chainSeg_append_cons, Bool.and_eq_true] at h1
      obtain ⟨h1a, h1b⟩ := h1
      rw [wf_iff]
      simp only [ht, hh0, hc, hcells2]
      refine ⟨?_, ?_, ?_⟩
      · rw [chainSeg_append_cons, Bool.and_eq_true]
        exact ⟨h1a, by simp [chainSeg]⟩
      · cases w with
        | nil => exact layoutFrom_snoc_grow (u := []) h2
        | cons c0 w' => exact layoutFrom_snoc_grow (u := c0 :: w') h2
      · rw [show w ++ ({ lst with next := some s.brk } :: [(⟨s.brk, n, false, none⟩ : Cell)])
            = (w ++ [{ lst with next := some s.brk }]) ++ [⟨s.brk, n, false, none⟩] by simp]
        simp

theorem wf_malloc {s : Heap} {n : Nat} (hwf : wf s = true) :
    wf (malloc s n).2 = true := by
  rw [malloc]
  split
  · exact hwf
  · split
    · exact wf_updCell hwf (fun c => rfl) (fun c => rfl) (fun c => rfl)
    · exact wf_mallocGrow hwf

/-! ### Layout facts about the last block -/

theorem layoutFrom_last_two {a : Nat} {u : List Cell} {p l : Cell} {brk : Nat}
    (h : layoutFrom a (u ++ [p, l]) brk = true) :
    p.addr + HEADER_SIZE + p.size = l.addr ∧ l.addr + HEADER_SIZE + l.size = brk := by
  rw [layoutFrom_append, Bool.and_eq_true] at h
  have h2 := h.2
  simp only [layoutFrom, Bool.and_eq_true, beq_iff_eq] at h2
  omega

theorem layout_last_two {u : List Cell} {p l : Cell} {brk : Nat}
    (h : layout (u ++ [p, l]) brk = true) :
    p.addr + HEADER_SIZE + p.size = l.addr ∧ l.addr + HEADER_SIZE + l.size = brk := by
  cases u with
  | nil => exact layoutFrom_last_two (u := []) h
  | cons x r => exact layoutFrom_last_two (u := x :: r) h

theorem layoutFrom_last_end {a : Nat} {u : List Cell} {l : Cell} {brk : Nat}
    (h : layoutFrom a (u ++ [l]) brk = true) :
    l.addr + HEADER_SIZE + l.size = brk := by
  rw [layoutFrom_append, Bool.and_eq_true] at h
  have h2 := h.2
  simp only [layoutFrom, Bool.and_eq_true, beq_iff_eq] at h2
  omega

theorem layout_last_end {u : List Cell} {l : Cell} {brk : Nat}
    (h : layout (u ++ [l]) brk = true) : l.addr + HEADER_SIZE + l.size = brk := by
  cases u with
  | nil => exact layoutFrom_last_end (u := []) h
  | cons x r => exact layoutFrom_last_end (u := x :: r) h

theorem layout_interior_lt {u : List Cell} {lst : Cell} {brk : Nat}
    (h : layout (u ++ [lst]) brk = true) {c : Cell} (hc : c ∈ u) :
    c.addr + HEADER_SIZE + c.size < brk := by
  cases u with
  | nil => cases hc
  | cons x r =>
    have h2 : layoutFrom x.addr ((x :: r) ++ [lst]) brk = true := h
    rw [layoutFrom_append, Bool.and_eq_true] at h2
    have hA := layoutFrom_bounds h2.1 hc
    have hB := h2.2
    simp only [layoutFrom, Bool.and_eq_true, beq_iff_eq] at hB
    have hhp := HEADER_SIZE_pos
    omega

theorem layoutFrom_snoc_shrink {a : Nat} {u : List Cell} {p l : Cell} {brk : Nat}
    (h : layoutFrom a (u ++ [p, l]) brk = true) {p2 : Cell}
    (haddr : p2.addr = p.addr) (hsize : p2.size = p.size) :
    layoutFrom a (u ++ [p2]) l.addr = true := by
  rw [layoutFrom_append] at h ⊢
  rw [Bool.and_eq_true] at h ⊢
  refine ⟨h.1, ?_⟩
  have h2 := h.2
  simp only [layoutFrom, Bool.and_eq_true, beq_iff_eq] at h2 ⊢
  omega

/-! ### Frame lemmas and branch equations for free -/

theorem free_mem (s : Heap) (b : Option Nat) : (free s b).mem = s.mem := by
  rcases b with _ | x
  · rfl
  · rcases hf : findCell s.cells (x - HEADER_SIZE) with _ | c
    · simp only [free, hf]
    · simp only [free, hf]
      split
      · rw [freeRelease]
        show (if s.head = s.tail then { s with head := none, tail := none }
            else freeUnlink s).mem = s.mem
        split
        · rfl
        · rfl
      · rfl

theorem free_single {s : Heap} {c : Cell} (hwf : wf s = true) (hc : s.cells = [c]) :
    free s (some (c.addr + HEADER_SIZE))
      = { s with cells := [], head := none, tail := none, brk := c.addr } := by
  rw [wf_iff] at hwf
  obtain ⟨h1, h2, h3⟩ := hwf
  rw [hc] at h1 h2 h3
  have hh : s.head = some c.addr := by simpa using chainSeg_start_none h1
  have ht : s.tail = some c.addr := by simpa using h3
  have hend : c.addr + HEADER_SIZE + c.size = s.brk := layout_last_end (u := []) h2
  have hfind : findCell s.cells (c.addr + HEADER_SIZE - HEADER_SIZE) = some c := by
    rw [Nat.add_sub_cancel, hc]
    simp [findCell, List.find?]
  simp only [free, hfind]
  rw [if_pos (by omega : c.addr + HEADER_SIZE + c.size = s.brk), if_pos (by rw [hh, ht])]
  rw [freeRelease]
  have hbrk : s.brk - (HEADER_SIZE + c.size) = c.addr := by omega
  rw [hbrk] -- hmm occurrences
  rw [hc]
  simp

theorem free_tail_eq {s : Heap} {u : List Cell} {p l : Cell} (hwf : wf s = true)
    (hc : s.cells = u ++ [p, l]) :
    free s (some (l.addr + HEADER_SIZE))
      = { s with cells := u ++ [{ p with next := none }],
                 tail := some p.addr, brk := l.addr } := by
  rw [wf_iff] at hwf
  obtain ⟨h1, h2, h3⟩ := hwf
  have hpw : s.cells.Pairwise (fun a b => a.addr < b.addr) := layout_pairwise h2
  have hadj : p.addr + HEADER_SIZE + p.size = l.addr ∧
      l.addr + HEADER_SIZE + l.size = s.brk := by
    rw [hc] at h2
    exact layout_last_two h2
  have hhp := HEADER_SIZE_pos
  have ht : s.tail = some l.addr := by
    rw [hc, show u ++ [p, l] = (u ++ [p]) ++ [l] by simp] at h3
    simpa using h3
  have hh : s.head = ((u ++ [p, l]).head?).map Cell.addr := by
    rw [← hc]
    exact chainSeg_start_none h1
  obtain ⟨c0, hc0h, hc0m⟩ : ∃ c0, (u ++ [p, l]).head? = some c0 ∧ c0 ∈ u ++ [p] := by
    cases u with
    | nil => exact ⟨p, by simp, by simp⟩
    | cons y r => exact ⟨y, by simp, by simp⟩
  have hupl : ∀ d ∈ u ++ [p], d.addr < l.addr := by
    intro d hd
    have hpw2 : ((u ++ [p]) ++ [l]).Pairwise (fun a b => a.addr < b.addr) := by
      rw [hc] at hpw
      simpa [List.append_assoc] using hpw
    exact pairwise_lt_last hpw2 hd
  have hne : ¬(s.head = s.tail) := by
    rw [hh, ht, hc0h]
    intro hEq
    simp at hEq
    have := hupl c0 hc0m
    omega
  have hfind : findCell s.cells (l.addr + HEADER_SIZE - HEADER_SIZE) = some l := by
    rw [Nat.add_sub_cancel]
    exact findCell_of_pairwise hpw (by rw [hc]; simp)
  have hchain : chainSeg (((u ++ [p, l]).head?).map Cell.addr) (u ++ [p, l]) none = true := by
    rw [← hh, ← hc]
    exact h1
  have hscan : freeScan s.cells s.tail (s.cells.length + 1) s.head
      = (updCell s.cells p.addr (fun d => { d with next := none }), some p.addr) := by
    rw [hc, ht, hh]
    have hs := freeScan_spec (t := []) (w := u) (p := p) (l := l) (k := s.brk)
      (by rw [List.nil_append, ← hc]; exact h2)
      hchain
      (g := (u ++ [p, l]).length + 1)
      (by simp only [List.length_append, List.length_cons]; omega)
    simpa using hs
  have hbrk : s.brk - (HEADER_SIZE + l.size) = l.addr := by omega
  have hcells2 : updCell s.cells p.addr (fun d => { d with next := none })
      = u ++ { p with next := none } :: [l] := by
    rw [hc]
    exact updCell_unique (by rw [← hc]; exact hpw)
  have hpl : p.addr < l.addr := by omega
  have hfilter : (u ++ { p with next := none } :: [l]).filter
      (fun d => decide (d.addr < l.addr)) = u ++ [{ p with next := none }] := by
    rw [List.filter_append]
    congr 1
    · rw [List.filter_eq_self]
      intro a ha
      simpa using hupl a (List.mem_append_left _ ha)
    · simp [List.filter_cons, hpl]
  simp only [free, hfind]
  rw [if_pos hadj.2, if_neg hne, freeUnlink, freeRelease]
  simp only [hscan, hcells2, hbrk, hfilter]

theorem free_interior_eq {s : Heap} {c : Cell} (hwf : wf s = true)
    (hc : c ∈ s.cells) (hint : ¬(c.addr + HEADER_SIZE + c.size = s.brk)) :
    free s (some (c.addr + HEADER_SIZE))
      = { s with
          cells := updCell s.cells c.addr (fun d => { d with is_free := true }) } := by
  rw [wf_iff] at hwf
  obtain ⟨h1, h2, h3⟩ := hwf
  have hfind : findCell s.cells (c.addr + HEADER_SIZE - HEADER_SIZE) = some c := by
    rw [Nat.add_sub_cancel]
    exact findCell_of_pairwise (layout_pairwise h2) hc
  simp only [free, hfind]
  rw [if_neg hint, Nat.add_sub_cancel]

theorem wf_free {s : Heap} {b : Option Nat} (hwf : wf s = true)
    (hb : validInput s b = true) : wf (free s b) = true := by
  rcases b with _ | x
  · exact hwf
  · rw [validInput, List.any_eq_true] at hb
    obtain ⟨c, hcmem, hcx⟩ := hb
    rw [beq_iff_eq] at hcx
    rw [← hcx]
    by_cases hend : c.addr + HEADER_SIZE + c.size = s.brk
    · rcases List.eq_nil_or_concat s.cells with hnil | ⟨w, lst, hcc⟩
      · rw [hnil] at hcmem
        cases hcmem
      · rw [List.concat_eq_append] at hcc
        have hceq : c = lst := by
          by_contra hneq
          have hcw : c ∈ w := by
            rw [hcc] at hcmem
            rcases List.mem_append.mp hcmem with hmem | hmem
            · exact hmem
            · rw [List.mem_singleton] at hmem
              exact absurd hmem hneq
          have hlt := layout_interior_lt
            (by rw [← hcc]; exact ((wf_iff s).mp hwf).2.1) hcw
          omega
        subst hceq
        rcases List.eq_nil_or_concat w with hwnil | ⟨u2, p, hw⟩
        · rw [hwnil, List.nil_append] at hcc
          rw [free_single hwf hcc, wf_iff]
          exact ⟨rfl, rfl, rfl⟩
        · rw [hw, List.concat_eq_append,
            show (u2 ++ [p]) ++ [c] = u2 ++ [p, c] by simp] at hcc
          rw [free_tail_eq hwf hcc]
          rw [wf_iff] at hwf ⊢
          obtain ⟨h1, h2, h3⟩ := hwf
          rw [hcc] at h1 h2
          refine ⟨?_, ?_, ?_⟩
          · show chainSeg s.head (u2 ++ [{ p with next := none }]) none = true
            rw [chainSeg_append_cons, Bool.and_eq_true] at h1
            rw [chainSeg_append_cons, Bool.and_eq_true]
            exact ⟨h1.1, by simp [chainSeg]⟩
          · show layout (u2 ++ [{ p with next := none }]) c.addr = true
            cases u2 with
            | nil => exact layoutFrom_snoc_shrink (u := []) h2 rfl rfl
            | cons c0 w' => exact layoutFrom_snoc_shrink (u := c0 :: w') h2 rfl rfl
          · show some p.addr
              = ((u2 ++ [{ p with next := none }]).getLast?).map Cell.addr
            rw [List.getLast?_concat]
            rfl
    · rw [free_interior_eq hwf hcmem hend]
      exact wf_updCell hwf (fun d => rfl) (fun d => rfl) (fun d => rfl)

/-! ### The invariant survives the derived operations -/

theorem malloc_validInput {s : Heap} {n : Nat} {b : Option Nat}
    (hb : validInput s b = true) : validInput (malloc s n).2 b = true := by
  rcases b with _ | x
  · rfl
  · rw [validInput, List.any_eq_true] at hb ⊢
    obtain ⟨c, hcmem, hcx⟩ := hb
    obtain ⟨c', hc'm, hc'a, hc's⟩ := malloc_cells_addrs (n := n) hcmem
    refine ⟨c', hc'm, ?_⟩
    rw [beq_iff_eq] at hcx ⊢
    omega

theorem wf_calloc {s : Heap} {num nsize : Nat} (hwf : wf s = true) :
    wf (calloc s num nsize).2 = true := by
  rw [calloc]
  split
  · exact hwf
  · split
    · exact hwf
    · have h1 := wf_malloc (n := num * nsize % SIZE_T_MOD) hwf
      rcases hm : malloc s (num * nsize % SIZE_T_MOD) with ⟨r, s1⟩
      rw [hm] at h1
      rcases r with _ | b
      · exact h1
      · exact h1

theorem wf_realloc {s : Heap} {b : Option Nat} {n : Nat} (hwf : wf s = true)
    (hb : validInput s b = true) : wf (realloc s b n).2 = true := by
  rcases b with _ | x
  · exact hwf
  · rcases hf : findCell s.cells (x - HEADER_SIZE) with _ | c
    · simp only [realloc, hf]
      split
      · exact hwf
      · exact hwf
    · simp only [realloc, hf]
      split
      · exact hwf
      · split
        · exact hwf
        · have h1 := wf_malloc (n := n) hwf
          have h2 := malloc_validInput (n := n) hb
          rcases hm : malloc s n with ⟨r, s1⟩
          rw [hm] at h1 h2
          rcases r with _ | rr
          · exact h1
          · exact wf_free h1 h2

/-! ### The invariant implies the registry consistency of the claim -/

theorem wf_registryConsistent {s : Heap} (hwf : wf s = true) :
    registryConsistent s = true := by
  have hwf2 := hwf
  rw [wf_iff] at hwf2
  obtain ⟨h1, h2, h3⟩ := hwf2
  have hpw := layout_pairwise h2
  rcases List.eq_nil_or_concat s.cells with hc | ⟨w, lst, hc⟩
  · have hh : s.head = none := by
      rw [hc] at h1
      rw [chainSeg, beq_iff_eq] at h1
      exact h1
    have ht : s.tail = none := by
      rw [hc] at h3
      simpa using h3
    rw [registryConsistent, hh, ht]
  · rw [List.concat_eq_append] at hc
    have ht : s.tail = some lst.addr := by
      rw [hc] at h3
      simpa using h3
    obtain ⟨a0, ha0⟩ : ∃ a0, s.head = some a0 := by
      rw [chainSeg_start_none h1, hc]
      cases w with
      | nil => exact ⟨lst.addr, by simp⟩
      | cons y r => exact ⟨y.addr, by simp⟩
    have hch : chainFrom s.cells (s.cells.length + 1) (some a0)
        = s.cells.map Cell.addr := by
      have hs := chainFrom_spec (t := []) (v := s.cells) (w := s.brk)
        (by rw [List.nil_append]; exact h2)
        (by rw [← chainSeg_start_none h1]; exact h1)
        (g := s.cells.length + 1) (by omega)
      rw [← ha0, chainSeg_start_none h1]
      simpa using hs
    have hlstmem : lst ∈ s.cells := by
      rw [hc]
      simp
    have hlstnext : lst.next = none := by
      rw [hc] at h1
      rw [chainSeg_append_cons, Bool.and_eq_true] at h1
      have hb := h1.2
      simp [chainSeg] at hb
      exact hb
    rw [registryConsistent, ha0, ht]
    rw [Bool.and_eq_true, Bool.and_eq_true, Bool.and_eq_true, Bool.and_eq_true]
    refine ⟨⟨⟨⟨?_, ?_⟩, ?_⟩, ?_⟩, ?_⟩
    · rw [hch, decide_eq_true_iff]
      exact List.Pairwise.map _ (fun a b hab => Nat.ne_of_lt hab) hpw
    · rw [hch, List.getLast?_map, hc, List.getLast?_concat, beq_iff_eq]
      rfl
    · rw [findCell_of_pairwise hpw hlstmem]
      show (lst.next == none) = true
      rw [hlstnext]
      rfl
    · rw [List.all_eq_true]
      intro c hcm
      rw [hch]
      exact List.elem_eq_true_of_mem (List.mem_map_of_mem Cell.addr hcm)
    · rw [List.all_eq_true]
      intro a ham
      rw [hch] at ham
      obtain ⟨c, hcm, rfl⟩ := List.mem_map.mp ham
      rw [findCell_of_pairwise hpw hcm]
      rfl

/-! ### Claim theorems, part two: the operation contracts -/

theorem malloc_findCell {s : Heap} {n : Nat} {c : Cell} (hwf : wf s = true)
    (hc : c ∈ s.cells) :
    ∃ c', findCell (malloc s n).2.cells c.addr = some c' ∧ c'.size = c.size := by
  have hwf1 := wf_malloc (n := n) hwf
  obtain ⟨c', hm, ha, hs⟩ := malloc_cells_addrs (n := n) hc
  have hlay := ((wf_iff _).mp hwf1).2.1
  have hfc := findCell_of_pairwise (layout_pairwise hlay) hm
  rw [ha] at hfc
  exact ⟨c', hfc, hs⟩

/-- Claim C1: if the registry holds a block with is_free set and size at
least the request, malloc returns the payload address of the first such
block in registry order from head, flips only that block's is_free to false,
and leaves its size, its next pointer, the payload memory, head, tail and
the break unchanged (no region growth on a hit). -/
theorem malloc_first_fit_hit (s : Heap) (n : Nat) (u v : List Cell) (c : Cell)
    (hwf : wf s = true) (hn : 0 < n) (hcells : s.cells = u ++ c :: v)
    (hfirst : ∀ d ∈ u, ¬(d.is_free = true ∧ n ≤ d.size))
    (hfree : c.is_free = true) (hsz : n ≤ c.size) :
    malloc s n = (some (c.addr + HEADER_SIZE),
      { s with cells := u ++ { c with is_free := false } :: v }) := by
  have hwf2 := hwf
  rw [wf_iff] at hwf2
  obtain ⟨h1, h2, h3⟩ := hwf2
  have hgfb : getFreeBlock s.cells n (s.cells.length + 1) s.head
      = (s.cells.find? (fun d => d.is_free && decide (n ≤ d.size))).map Cell.addr := by
    rw [chainSeg_start_none h1]
    have hs := getFreeBlock_spec (n := n) (t := []) (v := s.cells) (w := s.brk)
      (by rw [List.nil_append]; exact h2)
      (by rw [← chainSeg_start_none h1]; exact h1)
      (g := s.cells.length + 1) (by omega)
    simpa using hs
  have hfind : s.cells.find? (fun d => d.is_free && decide (n ≤ d.size)) = some c := by
    rw [hcells, List.find?_append]
    have hu : List.find? (fun d => d.is_free && decide (n ≤ d.size)) u = none := by
      rw [List.find?_eq_none]
      intro d hd
      simpa [Bool.and_eq_true] using hfirst d hd
    rw [hu]
    have hp : (c.is_free && decide (n ≤ c.size)) = true := by
      simp [hfree, hsz]
    simp [List.find?, hp]
  have hupd : updCell s.cells c.addr (fun d => { d with is_free := false })
      = u ++ { c with is_free := false } :: v := by
    rw [hcells]
    exact updCell_unique (by rw [← hcells]; exact layout_pairwise h2)
  rw [malloc, if_neg (by omega : ¬n = 0), hgfb, hfind]
  show (some (c.addr + HEADER_SIZE),
      { s with cells := updCell s.cells c.addr (fun d => { d with is_free := false }) })
    = (some (c.addr + HEADER_SIZE), { s with cells := u ++ { c with is_free := false } :: v })
  rw [hupd]

/-- Witness for C1: on the two-block heap S2 whose first block is free with
8 bytes, a request of 4 bytes reuses the first block. -/
theorem malloc_first_fit_hit_witness :
    malloc S2 4 = (some 124,
      { S2 with cells := [⟨100, 8, false, some 132⟩, ⟨132, 16, false, none⟩] }) :=
  malloc_first_fit_hit S2 4 [] [⟨132, 16, false, none⟩] ⟨100, 8, true, some 132⟩
    (by decide) (by decide) rfl (by simp) rfl (by decide)

/-- Claim C2: with at least two blocks and the tail block l at the physical
end of the region, free(l's payload) clears the next pointer of l's registry
predecessor p, makes p the new tail, and shrinks the break by exactly header
size plus l's payload size (no underflow: adding it back restores the old
break). -/
theorem free_tail_shrink (s : Heap) (u : List Cell) (p l : Cell)
    (hwf : wf s = true) (hcells : s.cells = u ++ [p, l]) :
    free s (some (l.addr + HEADER_SIZE))
      = { s with cells := u ++ [{ p with next := none }],
                 tail := some p.addr,
                 brk := s.brk - (HEADER_SIZE + l.size) } ∧
    l.addr + HEADER_SIZE + l.size = s.brk ∧
    s.brk - (HEADER_SIZE + l.size) + (HEADER_SIZE + l.size) = s.brk := by
  have hend : l.addr + HEADER_SIZE + l.size = s.brk := by
    have h2 := ((wf_iff s).mp hwf).2.1
    rw [hcells] at h2
    exact (layout_last_two h2).2
  refine ⟨?_, hend, by omega⟩
  rw [free_tail_eq hwf hcells]
  have hb : s.brk - (HEADER_SIZE + l.size) = l.addr := by omega
  rw [hb]

/-- Witness for C2: freeing the 16-byte tail block of S2 rewires the first
block's next to empty, makes it the tail, and shrinks the break to 132. -/
theorem free_tail_shrink_witness :
    free S2 (some 156)
      = { S2 with cells := [⟨100, 8, true, none⟩], tail := some 100, brk := 132 } ∧
    (132 : Nat) + HEADER_SIZE + 16 = 172 ∧ (132 : Nat) + (HEADER_SIZE + 16) = 172 := by
  have h := free_tail_shrink S2 [] ⟨100, 8, true, some 132⟩ ⟨132, 16, false, none⟩
    (by decide) rfl
  exact ⟨h.1, h.2.1, h.2.2⟩

/-- Claim C3: from an empty registry, a successful malloc followed by free of
the returned address restores the break exactly and resets head, tail and
the registry to empty. -/
theorem alloc_release_roundtrip (s : Heap) (n : Nat)
    (hwf : wf s = true) (hempty : s.cells = []) (hn : 0 < n)
    (hfit : s.brk + (HEADER_SIZE + n) ≤ s.limit) :
    (free (malloc s n).2 (malloc s n).1).brk = s.brk ∧
    (free (malloc s n).2 (malloc s n).1).head = none ∧
    (free (malloc s n).2 (malloc s n).1).tail = none ∧
    (free (malloc s n).2 (malloc s n).1).cells = [] := by
  have hh : s.head = none := by
    have h1 := ((wf_iff s).mp hwf).1
    rw [hempty] at h1
    rw [chainSeg, beq_iff_eq] at h1
    exact h1
  have ht : s.tail = none := by
    have h3 := ((wf_iff s).mp hwf).2.2
    rw [hempty] at h3
    simpa using h3
  have hm : malloc s n = (some (s.brk + HEADER_SIZE),
      { s with cells := [⟨s.brk, n, false, none⟩],
               head := some s.brk, tail := some s.brk,
               brk := s.brk + (HEADER_SIZE + n) }) := by
    rw [malloc, if_neg (by omega : ¬n = 0)]
    have hg : getFreeBlock s.cells n (s.cells.length + 1) s.head = none := by
      rw [hh, getFreeBlock]
    rw [hg]
    show mallocGrow s n = _
    rw [mallocGrow, if_neg (by omega : ¬s.limit < s.brk + (HEADER_SIZE + n))]
    rw [ht, hh, hempty]
    rfl
  have hwf1 := wf_malloc (n := n) hwf
  rw [hm] at hwf1
  have hfree := free_single hwf1 rfl
  have hfree2 : free (malloc s n).2 (malloc s n).1
      = { s with cells := [], head := none, tail := none, brk := s.brk } := by
    rw [hm]
    exact hfree
  rw [hfree2]
  exact ⟨rfl, rfl, rfl, rfl⟩

/-- Witness for C3: on the empty heap S0 with break 100, an allocation of 8
bytes followed by free of the returned address restores break 100 and an
empty registry. -/
theorem alloc_release_roundtrip_witness :
    (free (malloc S0 8).2 (malloc S0 8).1).brk = 100 ∧
    (free (malloc S0 8).2 (malloc S0 8).1).head = none ∧
    (free (malloc S0 8).2 (malloc S0 8).1).tail = none ∧
    (free (malloc S0 8).2 (malloc S0 8).1).cells = [] :=
  alloc_release_roundtrip S0 8 (by decide) rfl (by decide) (by decide)

/-- Claim C4: freeing an interior block, one whose payload does not end at
the break, only sets that block's is_free to true; head, tail, the break,
payload memory, every other block and the block's own size and next pointer
are unchanged. -/
theorem free_interior_frame (s : Heap) (u v : List Cell) (c : Cell)
    (hwf : wf s = true) (hcells : s.cells = u ++ c :: v)
    (hint : c.addr + HEADER_SIZE + c.size ≠ s.brk) :
    free s (some (c.addr + HEADER_SIZE))
      = { s with cells := u ++ { c with is_free := true } :: v } := by
  rw [free_interior_eq hwf (by rw [hcells]; simp) hint]
  have h2 := ((wf_iff s).mp hwf).2.1
  have hupd : updCell s.cells c.addr (fun d => { d with is_free := true })
      = u ++ { c with is_free := true } :: v := by
    rw [hcells]
    exact updCell_unique (by rw [← hcells]; exact layout_pairwise h2)
  rw [hupd]

/-- Witness for C4: freeing the interior 8-byte block of the two-live-block
heap S5 only flips its is_free flag. -/
theorem free_interior_frame_witness :
    free S5 (some 124)
      = { S5 with cells := [⟨100, 8, true, some 132⟩, ⟨132, 16, false, none⟩] } :=
  free_interior_frame S5 [] [⟨132, 16, false, none⟩] ⟨100, 8, false, some 132⟩
    (by decide) rfl (by decide)

/-- Claim C5: when realloc grows a block and the internal malloc succeeds at
address r, the result is exactly the new payload address together with the
state obtained by copying the old payload (old size bytes) to r and then
running the deallocation path on the old address; in particular the first
old-size bytes at r equal the old payload bytes from before the call. -/
theorem realloc_grow_preserves_content (s : Heap) (n r : Nat) (c : Cell)
    (hwf : wf s = true) (hc : c ∈ s.cells) (hgrow : c.size < n)
    (hr : (malloc s n).1 = some r) :
    realloc s (some (c.addr + HEADER_SIZE)) n
      = (some r, free { (malloc s n).2 with
            mem := memcpy (malloc s n).2.mem r (c.addr + HEADER_SIZE) c.size }
          (some (c.addr + HEADER_SIZE))) ∧
    (∀ i, i < c.size →
      (realloc s (some (c.addr + HEADER_SIZE)) n).2.mem (r + i)
        = s.mem (c.addr + HEADER_SIZE + i)) := by
  have hfind : findCell s.cells (c.addr + HEADER_SIZE - HEADER_SIZE) = some c := by
    rw [Nat.add_sub_cancel]
    exact findCell_of_pairwise (layout_pairwise ((wf_iff s).mp hwf).2.1) hc
  obtain ⟨c', hfind2, hsize'⟩ := malloc_findCell (n := n) hwf hc
  have hmain : realloc s (some (c.addr + HEADER_SIZE)) n
      = (some r, free { (malloc s n).2 with
            mem := memcpy (malloc s n).2.mem r (c.addr + HEADER_SIZE) c.size }
          (some (c.addr + HEADER_SIZE))) := by
    simp only [realloc, hfind]
    rw [if_neg (by omega : ¬n = 0), if_neg (by omega : ¬n ≤ c.size)]
    rcases hm2 : malloc s n with ⟨r2, s1⟩
    rw [hm2] at hr hfind2
    have hr2 : r2 = some r := hr
    subst hr2
    have hf3 : findCell s1.cells c.addr = some c' := hfind2
    have hn2 : (match findCell s1.cells (c.addr + HEADER_SIZE - HEADER_SIZE) with
        | some c1 => c1.size
        | none => 0) = c.size := by
      rw [Nat.add_sub_cancel, hf3]
      show c'.size = c.size
      exact hsize'
    simp only [hn2]
  refine ⟨hmain, ?_⟩
  intro i hi
  have h2m : (realloc s (some (c.addr + HEADER_SIZE)) n).2
      = free { (malloc s n).2 with
          mem := memcpy (malloc s n).2.mem r (c.addr + HEADER_SIZE) c.size }
        (some (c.addr + HEADER_SIZE)) := by
    rw [hmain]
  rw [h2m, free_mem]
  show (if r ≤ r + i ∧ r + i < r + c.size then
      (malloc s n).2.mem (c.addr + HEADER_SIZE + (r + i - r))
    else (malloc s n).2.mem (r + i)) = s.mem (c.addr + HEADER_SIZE + i)
  rw [if_pos ⟨by omega, by omega⟩, malloc_mem]
  congr 1
  omega

/-- Witness for C5: growing the 8-byte block of S4 (memory holds the
identity pattern) to 16 bytes moves the payload to address 156 and byte 3 of
the new payload equals old byte 127. -/
theorem realloc_grow_preserves_content_witness :
    realloc S4 (some 124) 16
      = (some 156, free { (malloc S4 16).2 with
            mem := memcpy (malloc S4 16).2.mem 156 124 8 } (some 124)) ∧
    (realloc S4 (some 124) 16).2.mem (156 + 3) = S4.mem (124 + 3) := by
  have h := realloc_grow_preserves_content S4 16 156 ⟨100, 8, false, none⟩
    (by decide) (by decide) (by decide) (by decide)
  exact ⟨h.1, h.2 3 (by decide)⟩

/-- Claim C6: when realloc must grow a block but the internal malloc fails,
realloc returns the absence sentinel and the state, with the original block
and the whole registry, is exactly as before the call. -/
theorem realloc_fail_untouched (s : Heap) (n : Nat) (c : Cell)
    (hwf : wf s = true) (hc : c ∈ s.cells) (hgrow : c.size < n)
    (hfail : (malloc s n).1 = none) :
    realloc s (some (c.addr + HEADER_SIZE)) n = (none, s) := by
  have hfind : findCell s.cells (c.addr + HEADER_SIZE - HEADER_SIZE) = some c := by
    rw [Nat.add_sub_cancel]
    exact findCell_of_pairwise (layout_pairwise ((wf_iff s).mp hwf).2.1) hc
  have hframe := malloc_fail_frame hfail
  simp only [realloc, hfind]
  rw [if_neg (by omega : ¬n = 0), if_neg (by omega : ¬n ≤ c.size)]
  rcases hm2 : malloc s n with ⟨r2, s1⟩
  rw [hm2] at hfail hframe
  have hr2 : r2 = none := hfail
  subst hr2
  have hs1 : s1 = s := hframe
  subst hs1
  rfl

/-- Witness for C6: on S3 the break limit blocks growth, so resizing the
8-byte block to 16 bytes fails and returns the state unchanged. -/
theorem realloc_fail_untouched_witness :
    realloc S3 (some 124) 16 = (none, S3) :=
  realloc_fail_untouched S3 16 ⟨100, 8, false, none⟩
    (by decide) (by decide) (by decide) (by decide)

/-- Claim C7: for nonzero size_t operands whose product overflows, calloc
returns NULL with no allocation and no state change, and the division check
detects overflow exactly: dividing the wrapped product by the count fails to
reproduce the element size precisely when the true product reaches 2^64. -/
theorem calloc_overflow_guard (s : Heap) (num nsize : Nat)
    (h1 : num ≠ 0) (h2 : nsize ≠ 0) (hn1 : num < SIZE_T_MOD) (hn2 : nsize < SIZE_T_MOD)
    (hov : SIZE_T_MOD ≤ num * nsize) :
    calloc s num nsize = (none, s) ∧
    (∀ a b : Nat, a ≠ 0 → a < SIZE_T_MOD → b < SIZE_T_MOD →
      (b ≠ a * b % SIZE_T_MOD / a ↔ SIZE_T_MOD ≤ a * b)) := by
  have key : ∀ a b : Nat, a ≠ 0 → a < SIZE_T_MOD → b < SIZE_T_MOD →
      (b ≠ a * b % SIZE_T_MOD / a ↔ SIZE_T_MOD ≤ a * b) := by
    intro a b ha hA hB
    have hpos : 0 < SIZE_T_MOD := by decide
    constructor
    · intro hne
      by_contra hlt
      push_neg at hlt
      rw [Nat.mod_eq_of_lt hlt, Nat.mul_div_cancel_left b (Nat.pos_of_ne_zero ha)] at hne
      exact hne rfl
    · intro hge hEq
      have hm : a * b % SIZE_T_MOD ≤ a * b - SIZE_T_MOD := by
        rw [Nat.mod_eq_sub_mod hge]
        exact Nat.mod_le _ _
      have hlt : a * b % SIZE_T_MOD < a * b := by omega
      have hq : a * b % SIZE_T_MOD / a < b := by
        rw [Nat.div_lt_iff_lt_mul (Nat.pos_of_ne_zero ha)]
        calc a * b % SIZE_T_MOD < a * b := hlt
          _ = b * a := Nat.mul_comm a b
      omega
  have hguard : nsize ≠ num * nsize % SIZE_T_MOD / num :=
    (key num nsize h1 hn1 hn2).mpr hov
  refine ⟨?_, key⟩
  rw [calloc, if_neg (fun hor => hor.elim h1 h2), if_pos hguard]

/-- Witness for C7: count 2^63 and element size 3 overflow 64-bit size_t, so
calloc on the empty heap S0 returns NULL with S0 unchanged. -/
theorem calloc_overflow_guard_witness :
    calloc S0 (2 ^ 63) 3 = (none, S0) ∧
    ((3 : Nat) ≠ 2 ^ 63 * 3 % SIZE_T_MOD / 2 ^ 63 ↔ SIZE_T_MOD ≤ 2 ^ 63 * 3) := by
  have h := calloc_overflow_guard S0 (2 ^ 63) 3
    (by decide) (by decide) (by decide) (by decide) (by decide)
  exact ⟨h.1, h.2 (2 ^ 63) 3 (by decide) (by decide) (by decide)⟩

/-- Claim C10: on a well-formed state, the registry is consistent in the
sense of the claim (head empty exactly when tail is, the chain from head is
duplicate-free, reaches tail whose next is empty, and visits every live
block exactly once), and every operation, malloc, free on a valid pointer,
calloc, and realloc on a valid pointer, preserves both the inductive
invariant wf and this consistency. -/
theorem registry_consistency_invariant (s : Heap) (n m num nsize : Nat)
    (b b2 : Option Nat) (hwf : wf s = true)
    (hb : validInput s b = true) (hb2 : validInput s b2 = true) :
    registryConsistent s = true ∧
    (wf (malloc s n).2 = true ∧ registryConsistent (malloc s n).2 = true) ∧
    (wf (free s b) = true ∧ registryConsistent (free s b) = true) ∧
    (wf (calloc s num nsize).2 = true ∧
      registryConsistent (calloc s num nsize).2 = true) ∧
    (wf (realloc s b2 m).2 = true ∧
      registryConsistent (realloc s b2 m).2 = true) := by
  have w1 := wf_malloc (n := n) hwf
  have w2 := wf_free hwf hb
  have w3 := @wf_calloc s num nsize hwf
  have w4 := wf_realloc (n := m) hwf hb2
  exact ⟨wf_registryConsistent hwf, ⟨w1, wf_registryConsistent w1⟩,
    ⟨w2, wf_registryConsistent w2⟩, ⟨w3, wf_registryConsistent w3⟩,
    ⟨w4, wf_registryConsistent w4⟩⟩

/-- Witness for C10 at the two-block heap S2 with valid payload pointers 124
and 156. -/
theorem registry_consistency_invariant_witness :
    registryConsistent S2 = true ∧
    (wf (malloc S2 5).2 = true ∧ registryConsistent (malloc S2 5).2 = true) ∧
    (wf (free S2 (some 124)) = true ∧
      registryConsistent (free S2 (some 124)) = true) ∧
    (wf (calloc S2 3 4).2 = true ∧ registryConsistent (calloc S2 3 4).2 = true) ∧
    (wf (realloc S2 (some 156) 2).2 = true ∧
      registryConsistent (realloc S2 (some 156) 2).2 = true) :=
  registry_consistency_invariant S2 5 2 3 4 (some 124) (some 156)
    (by decide) (by decide) (by decide)
